import Mathlib

/-!
Shallow embedding of `syntaxnet/neurosis/reader_ops.cc`: the batched parsing
driver `ParsingReader` and its two subclasses `GoldParseReader` (gold policy)
and `DecodedParseReader` (decoded policy).

The external collaborators (`ParserTransitionSystem`, `ParserState`,
`SentenceBatch`'s corpus reader, the feature extractor, punctuation scoring)
are not part of this source file; they are modelled as an abstract bundle of
total functions (`ParserModel`).  All control flow of `ParsingReader::Compute`,
`ParsingReader::AdvanceSentence`, `GoldParseReader::PerformActions`,
`GoldParseReader::AddAdditionalOutputs`, `DecodedParseReader::PerformActions`,
`DecodedParseReader::ComputeTokenAccuracy` and
`DecodedParseReader::AddAdditionalOutputs` is embedded faithfully below.

Scores arriving as the float input tensor are modelled as `WithBot q` for a
linear order `q`: `⊥` plays the role of `-INFINITY` (the initial `best_score`),
and the loop's comparison `score > best_score` is the strict order of
`WithBot q`.
-/

namespace Neurosis

/-- Result of one `Compute` call.  `fatal` models a failed `CHECK` (process
abort), `error` models an `OP_REQUIRES`-style error status returned to the
caller.  A successful step carries its payload. -/
inductive Outcome (α : Type) where
  | ok : α → Outcome α
  | fatal : Outcome α
  | error : Outcome α
  deriving DecidableEq

/-- Abstract bundle of the external collaborators used by `ParsingReader`:
the transition system, parser-state construction, token accessors used by
`ComputeTokenAccuracy`, the document projection `AddParseToDocument`, and the
feature extractor.  `σ` is the `ParserState` type, `Sent` the sentence type,
`Doc` the annotated-document type.  Features are modelled post-serialization
(`SparseFeatures::SerializeAsString`), so one feature cell is a `String`. -/
structure ParserModel (σ Sent Doc : Type) where
  /-- `ParserTransitionSystem::IsAllowedAction(action, state)`. -/
  isAllowedAction : Nat → σ → Bool
  /-- `ParserTransitionSystem::PerformAction(action, state)`; the external
  mutation is modelled as a total function returning the updated state. -/
  performAction : Nat → σ → σ
  /-- `ParserTransitionSystem::IsFinalState(state)`. -/
  isFinalState : σ → Bool
  /-- `ParserTransitionSystem::GetNextGoldAction(state)`. -/
  getNextGoldAction : σ → Nat
  /-- State created by `ParsingReader::AdvanceSentence` for a freshly loaded
  sentence (`new ParserState(...)` plus workspace `Preprocess`). -/
  initState : Sent → σ
  /-- `ParserState::sentence()`. -/
  sentenceOf : σ → Sent
  /-- `Sentence::token_size()`. -/
  numTokens : Sent → Nat
  /-- `utils::PunctuationUtil::ScoreToken(word, tag, scoring_type)` for token
  `i` of the sentence; the scoring-type string is baked into the model. -/
  scoreToken : Sent → Nat → Bool
  /-- `ParserState::IsTokenCorrect(i)`. -/
  isTokenCorrect : σ → Nat → Bool
  /-- The annotated document built by `documents_.emplace_back(state->sentence())`
  followed by `state->AddParseToDocument(&documents_.back())`. -/
  annotate : σ → Doc
  /-- `ParserEmbeddingFeatureExtractor::ExtractSparseFeatures`, already
  serialized: one list of feature groups, each a list of serialized cells. -/
  extract : σ → List (List String)
  /-- `ParserEmbeddingFeatureExtractor::FeatureSize(feature_space)`. -/
  featureSize : Nat → Nat
  /-- `ParserEmbeddingFeatureExtractor::NumEmbeddings()`. -/
  numEmbeddings : Nat

variable {σ Sent Doc : Type}

/-- Cross-step state of a `ParsingReader` op.  `slots` merges `states_[i]` and
the `SentenceBatch` slot occupancy (the two are kept in sync by
`AdvanceSentence`: `states_[i]` is non-null exactly when batch slot `i` is
occupied, so `sentence_batch_->size()` is the count of non-`none` entries).
`remaining` is the corpus cursor, `corpus` the full corpus used by `Rewind`.
`documents` is `DecodedParseReader::documents_`; `numTokensAcc` and
`numCorrectAcc` are `num_tokens_` and `num_correct_` (decoded reader only,
unused by the gold reader). -/
structure ReaderState (σ Sent Doc : Type) where
  slots : List (Option σ)
  remaining : List Sent
  corpus : List Sent
  numEpochs : Nat
  documents : List Doc
  numTokensAcc : Nat
  numCorrectAcc : Nat
  deriving DecidableEq

/-- Number of occupied batch slots: `sentence_batch_->size()`. -/
def countOccupied (slots : List (Option σ)) : Nat :=
  (slots.filterMap id).length

/-- Compacted batch index of slot `i`: how many occupied slots precede it.
This is the row a slot occupies in compacted (per-occupied-slot) outputs. -/
def batchIndexOf (slots : List (Option σ)) (i : Nat) : Nat :=
  countOccupied (slots.take i)

/-- One iteration of the decoded argmax loop body:
`if (score > best_score && IsAllowedAction(action, state)) update`. -/
def bestScanStep {q : Type} [LinearOrder q] (allowed : Nat → Bool)
    (row : Nat → WithBot q) (p : Nat × WithBot q) (a : Nat) : Nat × WithBot q :=
  if p.2 < row a ∧ allowed a = true then (a, row a) else p

/-- The decoded argmax over actions `0, 1, ..., n-1` in ascending order,
starting from `best_action = 0`, `best_score = -INFINITY`
(`DecodedParseReader::PerformActions`, inner loop).  `bestAction allowed row
(n+1)` processes actions `0..n-1` first and then action `n`, which is the same
ascending left-to-right order as the source loop. -/
def bestAction {q : Type} [LinearOrder q] (allowed : Nat → Bool)
    (row : Nat → WithBot q) : Nat → Nat × WithBot q
  | 0 => (0, (⊥ : WithBot q))
  | n + 1 => bestScanStep allowed row (bestAction allowed row n) n

/-- The token loop of `DecodedParseReader::ComputeTokenAccuracy` over tokens
`0..n-1` (ascending), threading the `(num_tokens_, num_correct_)` members. -/
def tallyTokens (M : ParserModel σ Sent Doc) (s : σ) : Nat → Nat × Nat → Nat × Nat
  | 0, acc => acc
  | n + 1, acc =>
    let acc' := tallyTokens M s n acc
    if M.scoreToken (M.sentenceOf s) n = true then
      (acc'.1 + 1, if M.isTokenCorrect s n = true then acc'.2 + 1 else acc'.2)
    else acc'

/-- `DecodedParseReader::ComputeTokenAccuracy(state)`: scans all tokens of the
state's sentence, incrementing the threaded counters. -/
def computeTokenAccuracy (M : ParserModel σ Sent Doc) (s : σ) (acc : Nat × Nat) :
    Nat × Nat :=
  tallyTokens M s (M.numTokens (M.sentenceOf s)) acc

/-- The advancement loop of `ParsingReader::Compute` for one occupied slot:
`while (IsFinalState(*state(i))) { AdvanceSentence(i); if null break; }`.
`AdvanceSentence` loads the next corpus sentence into the slot when one
remains, otherwise leaves the slot empty.  Returns the new slot content and
the corpus cursor after the loop. -/
def skipFinal (M : ParserModel σ Sent Doc) : List Sent → σ → Option σ × List Sent
  | [], s => if M.isFinalState s = true then (none, []) else (some s, [])
  | snt :: rest, s =>
    if M.isFinalState s = true then skipFinal M rest (M.initState snt)
    else (some s, snt :: rest)

/-- The full advancement pass of `ParsingReader::Compute` (lines 126-135):
slots are visited in ascending order; empty slots are skipped; each occupied
slot runs the `skipFinal` loop on the shared corpus cursor. -/
def advancePass (M : ParserModel σ Sent Doc) :
    List (Option σ) → List Sent → List (Option σ) × List Sent
  | [], rem => ([], rem)
  | none :: rest, rem =>
    let r := advancePass M rest rem
    (none :: r.1, r.2)
  | some s :: rest, rem =>
    let p := skipFinal M rem s
    let r := advancePass M rest p.2
    (p.1 :: r.1, r.2)

/-- The refill loop after a rewind (`for i in 0..max_batch_size:
AdvanceSentence(i)`): every slot is reloaded from the rewound cursor in slot
order, with no finality check on the freshly loaded states. -/
def refillPass (M : ParserModel σ Sent Doc) :
    List (Option σ) → List Sent → List (Option σ) × List Sent
  | [], rem => ([], rem)
  | _ :: rest, [] =>
    let r := refillPass M rest []
    (none :: r.1, r.2)
  | _ :: rest, snt :: rem =>
    let r := refillPass M rest rem
    (some (M.initState snt) :: r.1, r.2)

/-- Lines 126-143 of `ParsingReader::Compute`: the advancement pass followed
by the epoch check: if no occupied slot remains, `++num_epochs_`, the corpus
is rewound, and every slot is refilled.  Returns (slots, cursor, epoch). -/
def advanceRefill (M : ParserModel σ Sent Doc) (slots : List (Option σ))
    (rem corpus : List Sent) (epoch : Nat) :
    List (Option σ) × List Sent × Nat :=
  let p := advancePass M slots rem
  if countOccupied p.1 = 0 then
    let r := refillPass M p.1 corpus
    (r.1, r.2, epoch + 1)
  else (p.1, p.2, epoch)

/-- The per-slot `CHECK(feature_size == features_->FeatureSize(feature_space))`
of the feature-population loop: true when every extracted group of this slot
has the declared cardinality. -/
def slotCheck (M : ParserModel σ Sent Doc) (s : σ) : Bool :=
  (M.extract s).enum.all fun p => p.2.length == M.featureSize p.1

/-- The feature-population loop of `ParsingReader::Compute` (lines 155-174):
occupied slots are visited in ascending slot order; each one's extracted
groups are checked against the declared sizes (a mismatch trips the `CHECK`,
modelled as `Outcome.fatal`) and appended as one row per feature-group
matrix. -/
def populateGo (M : ParserModel σ Sent Doc) :
    List σ → List (List (List String)) → Outcome (List (List (List String)))
  | [], acc => .ok acc
  | s :: rest, acc =>
    if slotCheck M s = true then
      populateGo M rest (acc.zipWith (fun rows grp => rows ++ [grp]) (M.extract s))
    else .fatal

/-- Feature outputs for the occupied slots: one matrix per feature group,
each starting empty and receiving one row per occupied slot. -/
def populateFeatures (M : ParserModel σ Sent Doc) (occ : List σ) :
    Outcome (List (List (List String))) :=
  populateGo M occ (List.replicate M.numEmbeddings [])

/-- `GoldParseReader::PerformActions`: every occupied slot unconditionally
receives its next gold action. -/
def goldActionsPass (M : ParserModel σ Sent Doc) (slots : List (Option σ)) :
    List (Option σ) :=
  slots.map fun o => o.map fun s => M.performAction (M.getNextGoldAction s) s

/-- State pipeline of one `GoldParseReader` step before outputs are built:
gold actions, then advancement, then the epoch check and refill. -/
def goldPipeline (M : ParserModel σ Sent Doc) (rs : ReaderState σ Sent Doc) :
    List (Option σ) × List Sent × Nat :=
  advanceRefill M (goldActionsPass M rs.slots) rs.remaining rs.corpus rs.numEpochs

/-- Outputs of one `GoldParseReader::Compute` call: the per-group feature
matrices, the epoch counter, and the additional gold-action vector. -/
structure GoldOutput where
  features : List (List (List String))
  epoch : Nat
  goldActions : List Nat
  deriving DecidableEq

/-- One `GoldParseReader::Compute` call.  After the pipeline, features are
populated for the occupied slots; `GoldParseReader::AddAdditionalOutputs` then
emits `GetNextGoldAction` of each currently occupied (post-pipeline) state. -/
def goldStep (M : ParserModel σ Sent Doc) (rs : ReaderState σ Sent Doc) :
    Outcome (GoldOutput × ReaderState σ Sent Doc) :=
  let q := goldPipeline M rs
  match populateFeatures M (q.1.filterMap id) with
  | .fatal => .fatal
  | .error => .error
  | .ok feats =>
    .ok ({ features := feats, epoch := q.2.2,
           goldActions := (q.1.filterMap id).map M.getNextGoldAction },
         { slots := q.1, remaining := q.2.1, corpus := rs.corpus,
           numEpochs := q.2.2, documents := rs.documents,
           numTokensAcc := rs.numTokensAcc, numCorrectAcc := rs.numCorrectAcc })

/-- The slot loop of `DecodedParseReader::PerformActions`: slots in ascending
order, `batch_index` counting only occupied slots.  Each occupied slot applies
the argmax action of its score row; if the resulting state is final, token
accuracy is tallied into the threaded counters and the annotated document is
appended to the threaded buffer.  Returns (new slots, counters, documents). -/
def decodedGo {q : Type} [LinearOrder q] (M : ParserModel σ Sent Doc)
    (scores : Nat → Nat → WithBot q) (nA : Nat) :
    List (Option σ) → Nat → Nat × Nat → List Doc →
    List (Option σ) × (Nat × Nat) × List Doc
  | [], _, acc, docs => ([], acc, docs)
  | none :: rest, bi, acc, docs =>
    let r := decodedGo M scores nA rest bi acc docs
    (none :: r.1, r.2)
  | some s :: rest, bi, acc, docs =>
    let a := (bestAction (fun act => M.isAllowedAction act s) (scores bi) nA).1
    let s' := M.performAction a s
    if M.isFinalState s' = true then
      let acc' := computeTokenAccuracy M s' acc
      let docs' := docs ++ [M.annotate s']
      let r := decodedGo M scores nA rest (bi + 1) acc' docs'
      (some s' :: r.1, r.2)
    else
      let r := decodedGo M scores nA rest (bi + 1) acc docs
      (some s' :: r.1, r.2)

/-- State pipeline of one `DecodedParseReader` step: `PerformActions` (with
the `num_tokens_ = num_correct_ = 0` reset) followed by the shared
advancement/epoch logic.  Returns the action-pass result and the
post-advancement (slots, cursor, epoch). -/
def decodedPipeline {q : Type} [LinearOrder q] (M : ParserModel σ Sent Doc)
    (scores : Nat → Nat → WithBot q) (nA : Nat) (rs : ReaderState σ Sent Doc) :
    (List (Option σ) × (Nat × Nat) × List Doc) ×
      (List (Option σ) × List Sent × Nat) :=
  let t := decodedGo M scores nA rs.slots 0 (0, 0) rs.documents
  (t, advanceRefill M t.1 rs.remaining rs.corpus rs.numEpochs)

/-- Outputs of one `DecodedParseReader::Compute` call: feature matrices, the
epoch counter, the 2-element accuracy tuple, and the annotated documents. -/
structure DecodedOutput (Doc : Type) where
  features : List (List (List String))
  epoch : Nat
  numTokens : Nat
  numCorrect : Nat
  docs : List Doc
  deriving DecidableEq

/-- One `DecodedParseReader::Compute` call.  `nA` is the column count of the
input score matrix (`scores_matrix.dimension(1)`).  After the pipeline,
features are populated; `DecodedParseReader::AddAdditionalOutputs` emits the
accuracy counters and the serialized document buffer, then clears the
buffer. -/
def decodedStep {q : Type} [LinearOrder q] (M : ParserModel σ Sent Doc)
    (scores : Nat → Nat → WithBot q) (nA : Nat) (rs : ReaderState σ Sent Doc) :
    Outcome (DecodedOutput Doc × ReaderState σ Sent Doc) :=
  let t := decodedPipeline M scores nA rs
  match populateFeatures M (t.2.1.filterMap id) with
  | .fatal => .fatal
  | .error => .error
  | .ok feats =>
    .ok ({ features := feats, epoch := t.2.2.2,
           numTokens := t.1.2.1.1, numCorrect := t.1.2.1.2,
           docs := t.1.2.2 },
         { slots := t.2.1, remaining := t.2.2.1, corpus := rs.corpus,
           numEpochs := t.2.2.2, documents := [],
           numTokensAcc := t.1.2.1.1, numCorrectAcc := t.1.2.1.2 })

/-! Claim-side definitions: comparison functions written from the
specification's words, to be measured against the source embedding above. -/

/-- The per-occupied-slot action the decoded action pass hands to
`PerformAction`, read off the loop of `DecodedParseReader::PerformActions`:
slots in ascending order, `batch_index` counting occupied slots only. -/
def appliedActions {q : Type} [LinearOrder q] (M : ParserModel σ Sent Doc)
    (scores : Nat → Nat → WithBot q) (nA : Nat) :
    List (Option σ) → Nat → List (Option Nat)
  | [], _ => []
  | none :: rest, bi => none :: appliedActions M scores nA rest bi
  | some s :: rest, bi =>
    some (bestAction (fun act => M.isAllowedAction act s) (scores bi) nA).1 ::
      appliedActions M scores nA rest (bi + 1)

/-- Spec-worded description of the per-slot advancement: skip sentences whose
initial state is already final and stop at the first non-final one; when the
corpus is exhausted the slot is left empty. -/
def firstNonFinal (M : ParserModel σ Sent Doc) : List Sent → Option σ × List Sent
  | [] => (none, [])
  | snt :: rest =>
    if M.isFinalState (M.initState snt) = true then firstNonFinal M rest
    else (some (M.initState snt), rest)

/-- Spec-worded description of the sentences finalized during one decoded
action pass: the post-action states of occupied slots (in slot order) whose
post-action state is final. -/
def finalizedGo {q : Type} [LinearOrder q] (M : ParserModel σ Sent Doc)
    (scores : Nat → Nat → WithBot q) (nA : Nat) :
    List (Option σ) → Nat → List σ
  | [], _ => []
  | none :: rest, bi => finalizedGo M scores nA rest bi
  | some s :: rest, bi =>
    let s' := M.performAction
      (bestAction (fun act => M.isAllowedAction act s) (scores bi) nA).1 s
    if M.isFinalState s' = true then s' :: finalizedGo M scores nA rest (bi + 1)
    else finalizedGo M scores nA rest (bi + 1)

/-- Token tally of a single finalized sentence, from zeroed counters. -/
def specTokenTally (M : ParserModel σ Sent Doc) (s : σ) : Nat × Nat :=
  computeTokenAccuracy M s (0, 0)

/-- Componentwise sum of counter pairs. -/
def addPair (p1 p2 : Nat × Nat) : Nat × Nat :=
  (p1.1 + p2.1, p1.2 + p2.2)

/-- Sum of a list of counter pairs. -/
def sumPairs : List (Nat × Nat) → Nat × Nat
  | [] => (0, 0)
  | p :: rest => addPair p (sumPairs rest)

/-- Spec-worded accuracy tuple of one decoded step: the summed token tallies
of exactly the sentences finalized during this step's action pass. -/
def specStepAccuracy {q : Type} [LinearOrder q] (M : ParserModel σ Sent Doc)
    (scores : Nat → Nat → WithBot q) (nA : Nat) (slots : List (Option σ)) :
    Nat × Nat :=
  sumPairs ((finalizedGo M scores nA slots 0).map (specTokenTally M))

/-- Spec-worded description of the slot contents after the decoded action
pass: each occupied slot holds the result of applying its selected action. -/
def decodedNewSlots {q : Type} [LinearOrder q] (M : ParserModel σ Sent Doc)
    (scores : Nat → Nat → WithBot q) (nA : Nat) :
    List (Option σ) → Nat → List (Option σ)
  | [], _ => []
  | none :: rest, bi => none :: decodedNewSlots M scores nA rest bi
  | some s :: rest, bi =>
    some (M.performAction
        (bestAction (fun act => M.isAllowedAction act s) (scores bi) nA).1 s) ::
      decodedNewSlots M scores nA rest (bi + 1)

/-- Projection of a gold step outcome to its gold-action side channel. -/
def goldActionsOfOutcome :
    Outcome (GoldOutput × ReaderState σ Sent Doc) → Option (List Nat)
  | .ok (out, _) => some out.goldActions
  | .fatal => none
  | .error => none

/-- The claimed selection rule for the decoded policy: `a` is an allowed
action of maximal score, and every allowed action of smaller index scores
strictly below it (so ties at the maximum go to the lowest index). -/
def isFirstAllowedArgmax {q : Type} [LinearOrder q] (allowed : Nat → Bool)
    (row : Nat → WithBot q) (n a : Nat) : Prop :=
  a < n ∧ allowed a = true ∧
    (∀ b, b < n → allowed b = true → row b ≤ row a) ∧
    (∀ b, b < a → allowed b = true → row b < row a)

instance {q : Type} [LinearOrder q] (allowed : Nat → Bool)
    (row : Nat → WithBot q) [DecidableEq q] (n a : Nat) :
    Decidable (isFirstAllowedArgmax allowed row n a) := by
  unfold isFirstAllowedArgmax
  infer_instance

/-! Concrete model instances used by counterexamples and witnesses. -/

/-- Concrete gold-policy model: states are counters, the gold action at state
`s` is `s` itself, every action bumps the counter, states at `2` or beyond
are final, and a sentence `n` starts parsing at state `n`. -/
def MG : ParserModel Nat Nat Nat where
  isAllowedAction _ _ := true
  performAction _ s := s + 1
  isFinalState s := decide (2 ≤ s)
  getNextGoldAction s := s
  initState n := n
  sentenceOf s := s
  numTokens _ := 0
  scoreToken _ _ := false
  isTokenCorrect _ _ := false
  annotate s := s
  extract _ := [["a"]]
  featureSize _ := 1
  numEmbeddings := 1

/-- Gold model whose declared feature size disagrees with the extractor's
group cardinality (declared 2, extracted 1). -/
def M3 : ParserModel Nat Nat Nat :=
  { MG with featureSize := fun _ => 2 }

/-- Reader state with one occupied slot at parser state `0`. -/
def rs1 : ReaderState Nat Nat Nat where
  slots := [some 0]
  remaining := []
  corpus := [7]
  numEpochs := 1
  documents := []
  numTokensAcc := 0
  numCorrectAcc := 0

/-- Reader state with occupied slots 0 and 2 and an empty slot 1. -/
def rs6 : ReaderState Nat Nat Nat where
  slots := [some 0, none, some 0]
  remaining := []
  corpus := [9]
  numEpochs := 0
  documents := []
  numTokensAcc := 0
  numCorrectAcc := 0

/-- Concrete decoded-policy model: every action is allowed, every action bumps
the counter, states at `1` or beyond are final, sentences have two tokens, all
tokens are scored, and exactly token `0` is parsed correctly. -/
def MD : ParserModel Nat Nat Nat where
  isAllowedAction _ _ := true
  performAction _ s := s + 1
  isFinalState s := decide (1 ≤ s)
  getNextGoldAction s := s
  initState n := n
  sentenceOf s := s
  numTokens _ := 2
  scoreToken _ _ := true
  isTokenCorrect _ i := decide (i = 0)
  annotate s := s
  extract _ := [["a"]]
  featureSize _ := 1
  numEmbeddings := 1

/-- Decoded-policy model where only action `1` is ever allowed and no state is
final. -/
def MD2 : ParserModel Nat Nat Nat :=
  { MD with
    isAllowedAction := fun a _ => decide (a = 1)
    isFinalState := fun _ => false }

/-- Score matrix that is `-INFINITY` everywhere. -/
def scBot : Nat → Nat → WithBot Int := fun _ _ => ⊥

/-- Score matrix that is `0` everywhere. -/
def scZero : Nat → Nat → WithBot Int := fun _ _ => ((0 : Int) : WithBot Int)

/-- Score matrix giving action `1` score `5` and `-INFINITY` elsewhere. -/
def scOne : Nat → Nat → WithBot Int :=
  fun _ a => if a = 1 then ((5 : Int) : WithBot Int) else ⊥

/-- Reader state for the decoded scenario: one slot at state `0`, incoming
accuracy members deliberately nonzero. -/
def rs7 : ReaderState Nat Nat Nat where
  slots := [some 0]
  remaining := []
  corpus := [5]
  numEpochs := 0
  documents := []
  numTokensAcc := 3
  numCorrectAcc := 4

/-- Reader state with a gap, for the slot/row alignment scenario. -/
def rs10 : ReaderState Nat Nat Nat where
  slots := [none, some 7, some 8]
  remaining := []
  corpus := []
  numEpochs := 0
  documents := []
  numTokensAcc := 0
  numCorrectAcc := 0

/-- Output of `goldStep MG rs1`, written out. -/
def O1 : GoldOutput where
  features := [[["a"]]]
  epoch := 1
  goldActions := [1]

/-- State after `goldStep MG rs1`, written out. -/
def R1 : ReaderState Nat Nat Nat where
  slots := [some 1]
  remaining := []
  corpus := [7]
  numEpochs := 1
  documents := []
  numTokensAcc := 0
  numCorrectAcc := 0

/-- Output of `goldStep MG rs6`, written out. -/
def O6 : GoldOutput where
  features := [[["a"], ["a"]]]
  epoch := 0
  goldActions := [1, 1]

/-- State after `goldStep MG rs6`, written out. -/
def R6 : ReaderState Nat Nat Nat where
  slots := [some 1, none, some 1]
  remaining := []
  corpus := [9]
  numEpochs := 0
  documents := []
  numTokensAcc := 0
  numCorrectAcc := 0

/-- Output of `decodedStep MD scZero 1 rs7`, written out. -/
def O7 : DecodedOutput Nat where
  features := [[["a"]]]
  epoch := 1
  numTokens := 2
  numCorrect := 1
  docs := [1]

/-- State after `decodedStep MD scZero 1 rs7`, written out. -/
def R7 : ReaderState Nat Nat Nat where
  slots := [some 5]
  remaining := []
  corpus := [5]
  numEpochs := 1
  documents := []
  numTokensAcc := 2
  numCorrectAcc := 1

/-! Helper lemmas. -/

@[simp] theorem countOccupied_nil : countOccupied ([] : List (Option σ)) = 0 := rfl

@[simp] theorem countOccupied_none_cons (l : List (Option σ)) :
    countOccupied (none :: l) = countOccupied l := by
  simp [countOccupied, List.filterMap_cons]

@[simp] theorem countOccupied_some_cons (s : σ) (l : List (Option σ)) :
    countOccupied (some s :: l) = countOccupied l + 1 := by
  simp [countOccupied, List.filterMap_cons]

theorem zipWith_get_opt {α β γ : Type} (f : α → β → γ) :
    ∀ (l1 : List α) (l2 : List β) (g : Nat),
      (List.zipWith f l1 l2).get? g =
        Option.bind (l1.get? g) fun a => (l2.get? g).map (f a)
  | [], l2, g => by simp
  | a :: l1, [], g => by simp
  | a :: l1, b :: l2, 0 => by simp
  | a :: l1, b :: l2, g + 1 => by
    simpa using zipWith_get_opt f l1 l2 g

theorem replicate_get_opt {α : Type} (a : α) :
    ∀ (n g : Nat), g < n → (List.replicate n a).get? g = some a
  | n + 1, 0, _ => rfl
  | n + 1, g + 1, h => by
    simpa [List.replicate] using replicate_get_opt a n g (Nat.lt_of_succ_lt_succ h)

theorem getD_of_get_opt {α : Type} {l : List α} {n : Nat} {v : α} (d : α)
    (h : l.get? n = some v) : l.getD n d = v := by
  have h2 : l[n]? = some v := by simpa [← List.get?_eq_getElem?] using h
  simp [List.getD_eq_getElem?_getD, h2]

/-- Characterization of the decoded argmax scan: after scanning actions
`0..n-1` left to right, either no action with a score above `-INFINITY` was
allowed (and the pair is still the initial `(0, -INFINITY)`), or the running
best is an allowed action holding the maximum score among allowed actions,
and every allowed action of smaller index scores strictly below it. -/
theorem bestAction_spec {q : Type} [LinearOrder q] (allowed : Nat → Bool)
    (row : Nat → WithBot q) (n : Nat) :
    ((bestAction allowed row n).2 = ⊥ ∧ (bestAction allowed row n).1 = 0 ∧
      ∀ b, b < n → allowed b = true → row b = ⊥) ∨
    ((bestAction allowed row n).1 < n ∧
      allowed (bestAction allowed row n).1 = true ∧
      row (bestAction allowed row n).1 = (bestAction allowed row n).2 ∧
      (⊥ : WithBot q) < (bestAction allowed row n).2 ∧
      (∀ b, b < n → allowed b = true → row b ≤ (bestAction allowed row n).2) ∧
      (∀ b, b < (bestAction allowed row n).1 → allowed b = true →
        row b < (bestAction allowed row n).2)) := by
  induction n with
  | zero =>
    exact Or.inl ⟨rfl, rfl, fun b hb _ => absurd hb (Nat.not_lt_zero b)⟩
  | succ n ih =>
    have hstep : bestAction allowed row (n + 1) =
        bestScanStep allowed row (bestAction allowed row n) n := rfl
    by_cases hc : (bestAction allowed row n).2 < row n ∧ allowed n = true
    · have hval : bestAction allowed row (n + 1) = (n, row n) := by
        rw [hstep, bestScanStep, if_pos hc]
      rcases ih with ⟨hbs, _, hall⟩ | ⟨_, _, _, hpos, hub, _⟩
      · refine Or.inr ?_
        rw [hval]
        refine ⟨Nat.lt_succ_self n, hc.2, rfl, ?_, ?_, ?_⟩
        · rw [hbs] at hc; exact hc.1
        · intro b hb hab
          rcases Nat.lt_succ_iff_lt_or_eq.mp hb with h | h
          · rw [hall b h hab]; exact bot_le
          · subst h; exact le_refl _
        · intro b hb hab
          rw [hall b hb hab, ← hbs]; exact hc.1
      · refine Or.inr ?_
        rw [hval]
        refine ⟨Nat.lt_succ_self n, hc.2, rfl, lt_trans hpos hc.1, ?_, ?_⟩
        · intro b hb hab
          rcases Nat.lt_succ_iff_lt_or_eq.mp hb with h | h
          · exact le_of_lt (lt_of_le_of_lt (hub b h hab) hc.1)
          · subst h; exact le_refl _
        · intro b hb hab
          exact lt_of_le_of_lt (hub b hb hab) hc.1
    · have hval : bestAction allowed row (n + 1) = bestAction allowed row n := by
        rw [hstep, bestScanStep, if_neg hc]
      rcases ih with ⟨hbs, hba, hall⟩ | ⟨hlt, hal, hrow, hpos, hub, hstrict⟩
      · refine Or.inl ?_
        rw [hval]
        refine ⟨hbs, hba, ?_⟩
        intro b hb hab
        rcases Nat.lt_succ_iff_lt_or_eq.mp hb with h | h
        · exact hall b h hab
        · subst h
          have h2 : ¬(bestAction allowed row b).2 < row b := fun hl => hc ⟨hl, hab⟩
          rw [hbs] at h2
          exact le_bot_iff.mp (not_lt.mp h2)
      · refine Or.inr ?_
        rw [hval]
        refine ⟨Nat.lt_trans hlt (Nat.lt_succ_self n), hal, hrow, hpos, ?_, hstrict⟩
        intro b hb hab
        rcases Nat.lt_succ_iff_lt_or_eq.mp hb with h | h
        · exact hub b h hab
        · subst h
          have h2 : ¬(bestAction allowed row b).2 < row b := fun hl => hc ⟨hl, hab⟩
          exact not_lt.mp h2

@[simp] theorem addPair_zero_left (p : Nat × Nat) : addPair (0, 0) p = p := by
  simp [addPair]

@[simp] theorem addPair_zero_right (p : Nat × Nat) : addPair p (0, 0) = p := by
  simp [addPair]

theorem addPair_assoc (p1 p2 p3 : Nat × Nat) :
    addPair (addPair p1 p2) p3 = addPair p1 (addPair p2 p3) := by
  simp [addPair, Nat.add_assoc]

/-- The token loop only ever adds to the incoming counters: running it from
`acc` equals `acc` plus its result from zeroed counters. -/
theorem tallyTokens_shift (M : ParserModel σ Sent Doc) (s : σ) :
    ∀ (n : Nat) (acc : Nat × Nat),
      tallyTokens M s n acc = addPair acc (tallyTokens M s n (0, 0))
  | 0, acc => by simp [tallyTokens, addPair]
  | n + 1, acc => by
    have ih := tallyTokens_shift M s n acc
    simp only [tallyTokens]
    rw [ih]
    by_cases h1 : M.scoreToken (M.sentenceOf s) n = true
    · by_cases h2 : M.isTokenCorrect s n = true
      · simp [h1, h2, addPair, Nat.add_assoc]
      · simp [h1, h2, addPair, Nat.add_assoc]
    · simp [h1]

theorem computeTokenAccuracy_shift (M : ParserModel σ Sent Doc) (s : σ)
    (acc : Nat × Nat) :
    computeTokenAccuracy M s acc = addPair acc (specTokenTally M s) := by
  simp only [computeTokenAccuracy, specTokenTally]
  exact tallyTokens_shift M s (M.numTokens (M.sentenceOf s)) acc

/-- The counters produced by the decoded action pass are the incoming counters
plus the summed tallies of exactly the sentences finalized in the pass. -/
theorem decodedGo_counts {q : Type} [LinearOrder q] (M : ParserModel σ Sent Doc)
    (scores : Nat → Nat → WithBot q) (nA : Nat) (slots : List (Option σ)) :
    ∀ (bi : Nat) (acc : Nat × Nat) (docs : List Doc),
      (decodedGo M scores nA slots bi acc docs).2.1 =
        addPair acc
          (sumPairs ((finalizedGo M scores nA slots bi).map (specTokenTally M))) := by
  induction slots with
  | nil => intro bi acc docs; simp [decodedGo, finalizedGo, sumPairs, addPair]
  | cons o rest ih =>
    intro bi acc docs
    cases o with
    | none => simpa [decodedGo, finalizedGo] using ih bi acc docs
    | some s =>
      cases hf : M.isFinalState (M.performAction
          ((bestAction (fun act => M.isAllowedAction act s) (scores bi) nA).1) s) with
      | false => simp [decodedGo, finalizedGo, hf, ih]
      | true =>
        simp [decodedGo, finalizedGo, hf, ih, sumPairs,
          computeTokenAccuracy_shift, addPair_assoc]

/-- The document buffer produced by the decoded action pass is the incoming
buffer followed by the annotated documents of exactly the sentences finalized
in the pass, in slot order. -/
theorem decodedGo_docs {q : Type} [LinearOrder q] (M : ParserModel σ Sent Doc)
    (scores : Nat → Nat → WithBot q) (nA : Nat) (slots : List (Option σ)) :
    ∀ (bi : Nat) (acc : Nat × Nat) (docs : List Doc),
      (decodedGo M scores nA slots bi acc docs).2.2 =
        docs ++ (finalizedGo M scores nA slots bi).map M.annotate := by
  induction slots with
  | nil => intro bi acc docs; simp [decodedGo, finalizedGo]
  | cons o rest ih =>
    intro bi acc docs
    cases o with
    | none => simpa [decodedGo, finalizedGo] using ih bi acc docs
    | some s =>
      cases hf : M.isFinalState (M.performAction
          ((bestAction (fun act => M.isAllowedAction act s) (scores bi) nA).1) s) with
      | false => simp [decodedGo, finalizedGo, hf, ih]
      | true => simp [decodedGo, finalizedGo, hf, ih]

/-- The decoded action pass does not change which slots are occupied. -/
theorem decodedGo_isSome {q : Type} [LinearOrder q] (M : ParserModel σ Sent Doc)
    (scores : Nat → Nat → WithBot q) (nA : Nat) (slots : List (Option σ)) :
    ∀ (bi : Nat) (acc : Nat × Nat) (docs : List Doc),
      ((decodedGo M scores nA slots bi acc docs).1).map Option.isSome =
        slots.map Option.isSome := by
  induction slots with
  | nil => intro bi acc docs; simp [decodedGo]
  | cons o rest ih =>
    intro bi acc docs
    cases o with
    | none => simpa [decodedGo] using ih bi acc docs
    | some s =>
      cases hf : M.isFinalState (M.performAction
          ((bestAction (fun act => M.isAllowedAction act s) (scores bi) nA).1) s) with
      | false => simp [decodedGo, hf, ih]
      | true => simp [decodedGo, hf, ih]

/-- The slot entry produced by the decoded action pass for occupied slot `i`
is the result of applying the argmax action of score row
`bi + batchIndexOf slots i`. -/
theorem decodedGo_get {q : Type} [LinearOrder q] (M : ParserModel σ Sent Doc)
    (scores : Nat → Nat → WithBot q) (nA : Nat) (slots : List (Option σ)) :
    ∀ (bi : Nat) (acc : Nat × Nat) (docs : List Doc) (i : Nat) (s : σ),
      slots.get? i = some (some s) →
      (decodedGo M scores nA slots bi acc docs).1.get? i =
        some (some (M.performAction
          ((bestAction (fun act => M.isAllowedAction act s)
            (scores (bi + countOccupied (slots.take i))) nA).1) s)) := by
  induction slots with
  | nil => intro bi acc docs i s h; simp at h
  | cons o rest ih =>
    intro bi acc docs i s h
    cases o with
    | none =>
      cases i with
      | zero => simp at h
      | succ i =>
        rw [List.get?_cons_succ] at h
        simpa [decodedGo, List.take_succ_cons] using ih bi acc docs i s h
    | some s0 =>
      cases i with
      | zero =>
        rw [List.get?_cons_zero] at h
        obtain rfl : s0 = s := by injection h with h2; injection h2
        cases hf : M.isFinalState (M.performAction
            ((bestAction (fun act => M.isAllowedAction act s0) (scores bi) nA).1) s0) with
        | false => simp [decodedGo, hf]
        | true => simp [decodedGo, hf]
      | succ i =>
        rw [List.get?_cons_succ] at h
        rw [List.take_succ_cons]
        have harith : bi + countOccupied (some s0 :: rest.take i) =
            bi + 1 + countOccupied (rest.take i) := by
          simp [countOccupied_some_cons]; omega
        rw [harith]
        cases hf : M.isFinalState (M.performAction
            ((bestAction (fun act => M.isAllowedAction act s0) (scores bi) nA).1) s0) with
        | false => simpa [decodedGo, hf] using ih (bi + 1) acc docs i s h
        | true => simpa [decodedGo, hf] using ih (bi + 1) _ _ i s h

/-- The action handed to `PerformAction` for occupied slot `i` is the argmax
of score row `bi + batchIndexOf slots i`. -/
theorem appliedActions_get {q : Type} [LinearOrder q] (M : ParserModel σ Sent Doc)
    (scores : Nat → Nat → WithBot q) (nA : Nat) (slots : List (Option σ)) :
    ∀ (bi i : Nat) (s : σ),
      slots.get? i = some (some s) →
      (appliedActions M scores nA slots bi).get? i =
        some (some ((bestAction (fun act => M.isAllowedAction act s)
          (scores (bi + countOccupied (slots.take i))) nA).1)) := by
  induction slots with
  | nil => intro bi i s h; simp at h
  | cons o rest ih =>
    intro bi i s h
    cases o with
    | none =>
      cases i with
      | zero => simp at h
      | succ i =>
        rw [List.get?_cons_succ] at h
        simpa [appliedActions, List.take_succ_cons] using ih bi i s h
    | some s0 =>
      cases i with
      | zero =>
        rw [List.get?_cons_zero] at h
        obtain rfl : s0 = s := by injection h with h2; injection h2
        simp [appliedActions]
      | succ i =>
        rw [List.get?_cons_succ] at h
        rw [List.take_succ_cons]
        have harith : bi + countOccupied (some s0 :: rest.take i) =
            bi + 1 + countOccupied (rest.take i) := by
          simp [countOccupied_some_cons]; omega
        rw [harith]
        simpa [appliedActions] using ih (bi + 1) i s h

/-- The compacted position of occupied slot `i` in the filtered slot list is
its batch index: the row its features occupy in compacted outputs. -/
theorem filterMap_get_batchIndex (slots : List (Option σ)) :
    ∀ (i : Nat) (s : σ),
      slots.get? i = some (some s) →
      (slots.filterMap id).get? (batchIndexOf slots i) = some s := by
  induction slots with
  | nil => intro i s h; simp at h
  | cons o rest ih =>
    intro i s h
    cases o with
    | none =>
      cases i with
      | zero => simp at h
      | succ i =>
        rw [List.get?_cons_succ] at h
        simpa [batchIndexOf, List.take_succ_cons, List.filterMap_cons] using ih i s h
    | some s0 =>
      cases i with
      | zero =>
        rw [List.get?_cons_zero] at h
        obtain rfl : s0 = s := by injection h with h2; injection h2
        simp [batchIndexOf, List.filterMap_cons]
      | succ i =>
        rw [List.get?_cons_succ] at h
        have ih1 := ih i s h
        simp only [batchIndexOf, List.take_succ_cons, countOccupied_some_cons,
          List.filterMap_cons, id]
        simpa [batchIndexOf] using ih1

/-- A non-final state leaves the advancement loop immediately. -/
theorem skipFinal_not_final (M : ParserModel σ Sent Doc) (rem : List Sent) (s : σ)
    (h : M.isFinalState s = false) : skipFinal M rem s = (some s, rem) := by
  cases rem with
  | nil => simp [skipFinal, h]
  | cons snt rest => simp [skipFinal, h]

/-- Case split of the epoch check: the counter bumps and every slot is
refilled from the rewound corpus exactly when the advancement pass left no
slot occupied; otherwise slots, cursor and counter pass through. -/
theorem advanceRefill_spec (M : ParserModel σ Sent Doc) (slots : List (Option σ))
    (rem corpus : List Sent) (epoch : Nat) :
    (countOccupied (advancePass M slots rem).1 = 0 →
      advanceRefill M slots rem corpus epoch =
        ((refillPass M (advancePass M slots rem).1 corpus).1,
         (refillPass M (advancePass M slots rem).1 corpus).2, epoch + 1)) ∧
    (countOccupied (advancePass M slots rem).1 ≠ 0 →
      advanceRefill M slots rem corpus epoch =
        ((advancePass M slots rem).1, (advancePass M slots rem).2, epoch)) := by
  constructor <;> intro h <;> simp [advanceRefill, h]

/-- A cardinality mismatch in any occupied slot trips the `CHECK`. -/
theorem populateGo_fatal (M : ParserModel σ Sent Doc) (occ : List σ) :
    ∀ (acc : List (List (List String))),
      (∃ s ∈ occ, slotCheck M s = false) → populateGo M occ acc = .fatal := by
  induction occ with
  | nil => intro acc h; simp at h
  | cons s0 rest ih =>
    intro acc h
    cases hc : slotCheck M s0 with
    | false => simp [populateGo, hc]
    | true =>
      rcases h with ⟨s, hmem, hs⟩
      rcases List.mem_cons.mp hmem with rfl | hmem2
      · rw [hc] at hs; cases hs
      · simp only [populateGo, hc, if_pos]
        exact ih _ ⟨s, hmem2, hs⟩

/-- A successful population run preserves the number of feature-group
matrices. -/
theorem populateGo_ok_length (M : ParserModel σ Sent Doc) (occ : List σ) :
    ∀ (acc mats : List (List (List String))),
      populateGo M occ acc = .ok mats →
      (∀ s ∈ occ, (M.extract s).length = acc.length) →
      mats.length = acc.length := by
  induction occ with
  | nil => intro acc mats h hlen; injection h with h2; rw [← h2]
  | cons s0 rest ih =>
    intro acc mats h hlen
    cases hc : slotCheck M s0 with
    | false => rw [populateGo, hc] at h; simp at h
    | true =>
      rw [populateGo, hc] at h
      simp only [if_pos] at h
      have hlen0 : (M.extract s0).length = acc.length :=
        hlen s0 (List.mem_cons_self s0 rest)
      have hz : (acc.zipWith (fun rows grp => rows ++ [grp]) (M.extract s0)).length =
          acc.length := by
        rw [List.length_zipWith, hlen0, min_self]
      have := ih _ mats h (by intro s hs; rw [hz]; exact hlen s (List.mem_cons_of_mem s0 hs))
      rw [this, hz]

/-- A successful population run appends, to each feature-group matrix, one row
per occupied slot in order: the slot's extracted group of that index. -/
theorem populateGo_ok_get (M : ParserModel σ Sent Doc) (occ : List σ) :
    ∀ (acc mats : List (List (List String))),
      populateGo M occ acc = .ok mats →
      (∀ s ∈ occ, (M.extract s).length = acc.length) →
      ∀ g, mats.get? g =
        (acc.get? g).map fun rows =>
          rows ++ occ.map fun s => (M.extract s).getD g [] := by
  induction occ with
  | nil =>
    intro acc mats h hlen g
    injection h with h2
    rw [← h2]
    cases hg : acc.get? g <;> simp
  | cons s0 rest ih =>
    intro acc mats h hlen g
    cases hc : slotCheck M s0 with
    | false => rw [populateGo, hc] at h; simp at h
    | true =>
      rw [populateGo, hc] at h
      simp only [if_pos] at h
      have hlen0 : (M.extract s0).length = acc.length :=
        hlen s0 (List.mem_cons_self s0 rest)
      have hz : (acc.zipWith (fun rows grp => rows ++ [grp]) (M.extract s0)).length =
          acc.length := by
        rw [List.length_zipWith, hlen0, min_self]
      have hrec := ih _ mats h
        (by intro s hs; rw [hz]; exact hlen s (List.mem_cons_of_mem s0 hs)) g
      rw [hrec, zipWith_get_opt]
      cases hg : acc.get? g with
      | none => simp
      | some rows =>
        have hglt : g < acc.length := by
          by_contra hge
          rw [List.get?_eq_none.mpr (Nat.le_of_not_lt hge)] at hg
          cases hg
        have hglt2 : g < (M.extract s0).length := by rw [hlen0]; exact hglt
        obtain ⟨v, hv⟩ : ∃ v, (M.extract s0).get? g = some v := by
          cases hv0 : (M.extract s0).get? g with
          | none => rw [List.get?_eq_none] at hv0; omega
          | some v => exact ⟨v, rfl⟩
        have hd : (M.extract s0).getD g [] = v := getD_of_get_opt [] hv
        have hv2 : (M.extract s0)[g]? = some v := by
          simpa [← List.get?_eq_getElem?] using hv
        simp [hg, hv, hv2, hd, List.append_assoc]

/-- Inversion of a successful gold step: every output and state component is
determined by the pipeline. -/
theorem goldStep_ok_inv (M : ParserModel σ Sent Doc) (rs : ReaderState σ Sent Doc)
    (out : GoldOutput) (rs' : ReaderState σ Sent Doc)
    (h : goldStep M rs = .ok (out, rs')) :
    populateFeatures M ((goldPipeline M rs).1.filterMap id) = .ok out.features ∧
    out.epoch = (goldPipeline M rs).2.2 ∧
    out.goldActions = ((goldPipeline M rs).1.filterMap id).map M.getNextGoldAction ∧
    rs'.slots = (goldPipeline M rs).1 ∧
    rs'.remaining = (goldPipeline M rs).2.1 ∧
    rs'.corpus = rs.corpus ∧
    rs'.numEpochs = (goldPipeline M rs).2.2 ∧
    rs'.documents = rs.documents ∧
    rs'.numTokensAcc = rs.numTokensAcc ∧
    rs'.numCorrectAcc = rs.numCorrectAcc := by
  rw [goldStep] at h
  cases hp : populateFeatures M ((goldPipeline M rs).1.filterMap id) with
  | fatal => rw [hp] at h; cases h
  | error => rw [hp] at h; cases h
  | ok feats =>
    rw [hp] at h
    simp only [Outcome.ok.injEq, Prod.mk.injEq] at h
    obtain ⟨hout, hrs⟩ := h
    rw [← hout, ← hrs]
    exact ⟨rfl, rfl, rfl, rfl, rfl, rfl, rfl, rfl, rfl, rfl⟩

/-- Inversion of a successful decoded step: every output and state component
is determined by the pipeline. -/
theorem decodedStep_ok_inv {q : Type} [LinearOrder q] (M : ParserModel σ Sent Doc)
    (scores : Nat → Nat → WithBot q) (nA : Nat) (rs : ReaderState σ Sent Doc)
    (out : DecodedOutput Doc) (rs' : ReaderState σ Sent Doc)
    (h : decodedStep M scores nA rs = .ok (out, rs')) :
    populateFeatures M
        ((decodedPipeline M scores nA rs).2.1.filterMap id) = .ok out.features ∧
    out.epoch = (decodedPipeline M scores nA rs).2.2.2 ∧
    out.numTokens = (decodedPipeline M scores nA rs).1.2.1.1 ∧
    out.numCorrect = (decodedPipeline M scores nA rs).1.2.1.2 ∧
    out.docs = (decodedPipeline M scores nA rs).1.2.2 ∧
    rs'.slots = (decodedPipeline M scores nA rs).2.1 ∧
    rs'.remaining = (decodedPipeline M scores nA rs).2.2.1 ∧
    rs'.corpus = rs.corpus ∧
    rs'.numEpochs = (decodedPipeline M scores nA rs).2.2.2 ∧
    rs'.documents = [] ∧
    rs'.numTokensAcc = (decodedPipeline M scores nA rs).1.2.1.1 ∧
    rs'.numCorrectAcc = (decodedPipeline M scores nA rs).1.2.1.2 := by
  rw [decodedStep] at h
  cases hp : populateFeatures M
      ((decodedPipeline M scores nA rs).2.1.filterMap id) with
  | fatal => rw [hp] at h; cases h
  | error => rw [hp] at h; cases h
  | ok feats =>
    rw [hp] at h
    simp only [Outcome.ok.injEq, Prod.mk.injEq] at h
    obtain ⟨hout, hrs⟩ := h
    rw [← hout, ← hrs]
    exact ⟨rfl, rfl, rfl, rfl, rfl, rfl, rfl, rfl, rfl, rfl, rfl, rfl⟩

/-! Claim theorems. -/

/-- C1 (counterexample): the gold-action side channel of `goldStep MG rs1`
reports `[1]`, the next gold action of the post-refill state, not `[0]`, the
gold action actually taken for the occupied slot during the step (which is
computed before finalization checks and refills).  So the side channel does
not report the action taken during the step. -/
theorem claim_C1_counterexample :
    goldActionsOfOutcome (goldStep MG rs1) ≠
      some ((rs1.slots.filterMap id).map MG.getNextGoldAction) := by
  decide

/-- C1 (amended): for every GoldPolicy step, the gold-action side channel
reports, for each slot occupied after the finalization checks and refills,
the next gold action of that slot's current (post-refill) state — the action
to be taken on the following step, aligned with the emitted features — not
the action taken during this step. -/
theorem claim_C1 (M : ParserModel σ Sent Doc) (rs : ReaderState σ Sent Doc)
    (out : GoldOutput) (rs' : ReaderState σ Sent Doc)
    (h : goldStep M rs = .ok (out, rs')) :
    out.goldActions = (rs'.slots.filterMap id).map M.getNextGoldAction := by
  obtain ⟨-, -, h3, h4, -, -, -, -, -, -⟩ := goldStep_ok_inv M rs out rs' h
  rw [h4]
  exact h3

/-- C1 (witness): the amended statement evaluated on the concrete gold run. -/
theorem claim_C1_witness :
    goldStep MG rs1 = .ok (O1, R1) ∧
    O1.goldActions = (R1.slots.filterMap id).map MG.getNextGoldAction :=
  ⟨by decide, claim_C1 MG rs1 O1 R1 (by decide)⟩

/-- C2 (counterexample): with every score at `-INFINITY` and action `0`
disallowed, the decoded action pass still hands action `0` to
`PerformAction`: a disallowed action is attempted. -/
theorem claim_C2_counterexample :
    (decodedGo MD2 scBot 2 [some 0] 0 (0, 0) []).1 =
      [some (MD2.performAction 0 0)] ∧
    appliedActions MD2 scBot 2 [some 0] 0 = [some 0] ∧
    MD2.isAllowedAction 0 0 = false := by
  decide

/-- C2 (amended): for every DecodedPolicy step and occupied slot, provided
some allowed action of the slot's score row has a score above `-INFINITY`,
the action applied by `PerformAction` satisfies `isAllowedAction`; without
that proviso the pass falls back to action `0` even when disallowed. -/
theorem claim_C2 {q : Type} [LinearOrder q] (M : ParserModel σ Sent Doc)
    (scores : Nat → Nat → WithBot q) (nA : Nat) (slots : List (Option σ))
    (i : Nat) (s : σ) (a : Nat)
    (hs : slots.get? i = some (some s))
    (ha : (appliedActions M scores nA slots 0).get? i = some (some a))
    (hex : ∃ b, b < nA ∧ M.isAllowedAction b s = true ∧
      (⊥ : WithBot q) < scores (batchIndexOf slots i) b) :
    M.isAllowedAction a s = true ∧
    ∀ (acc : Nat × Nat) (docs : List Doc),
      (decodedGo M scores nA slots 0 acc docs).1.get? i =
        some (some (M.performAction a s)) := by
  have hget := appliedActions_get M scores nA slots 0 i s hs
  rw [ha] at hget
  have haa : a = (bestAction (fun act => M.isAllowedAction act s)
      (scores (0 + countOccupied (slots.take i))) nA).1 := by
    injection hget with h2
    injection h2
  have hrow : 0 + countOccupied (slots.take i) = batchIndexOf slots i := by
    simp [batchIndexOf]
  rw [hrow] at haa
  constructor
  · rcases bestAction_spec (fun act => M.isAllowedAction act s)
        (scores (batchIndexOf slots i)) nA with
      ⟨hbs, hb0, hall⟩ | ⟨hlt, hal, hrw, hpos, hub, hstrict⟩
    · rcases hex with ⟨b, hb, hab, hposb⟩
      rw [hall b hb hab] at hposb
      exact absurd hposb (lt_irrefl _)
    · rw [haa]
      exact hal
  · intro acc docs
    rw [decodedGo_get M scores nA slots 0 acc docs i s hs, haa, hrow]

/-- C2 (witness): the amended statement evaluated on a concrete slot where
allowed action `1` has a finite score. -/
theorem claim_C2_witness :
    MD2.isAllowedAction 1 0 = true ∧
    (decodedGo MD2 scOne 2 [some 0] 0 (0, 0) []).1.get? 0 =
      some (some (MD2.performAction 1 0)) :=
  ⟨(claim_C2 MD2 scOne 2 [some 0] 0 0 1 (by decide) (by decide)
      ⟨1, by decide, by decide, by decide⟩).1,
   (claim_C2 MD2 scOne 2 [some 0] 0 0 1 (by decide) (by decide)
      ⟨1, by decide, by decide, by decide⟩).2 (0, 0) []⟩

/-- C3 (counterexample): with a declared feature size of 2 and an extractor
producing groups of cardinality 1, the step ends in the fatal `CHECK` abort,
which is not the error outcome the claim promises. -/
theorem claim_C3_counterexample :
    goldStep M3 rs1 = Outcome.fatal ∧
    (Outcome.fatal : Outcome (GoldOutput × ReaderState Nat Nat Nat)) ≠
      Outcome.error := by
  decide

/-- C3 (amended): if any occupied slot's extracted feature groups mismatch
the declared `featureSize`, the step dies in the `CHECK` (a fatal abort), not
by returning an error to the caller. -/
theorem claim_C3 (M : ParserModel σ Sent Doc) (rs : ReaderState σ Sent Doc)
    (h : ∃ s ∈ (goldPipeline M rs).1.filterMap id, slotCheck M s = false) :
    goldStep M rs = .fatal := by
  have hp : populateFeatures M ((goldPipeline M rs).1.filterMap id) = .fatal :=
    populateGo_fatal M _ _ h
  rw [goldStep, hp]

/-- C3 (witness): the amended statement evaluated on the mismatching model. -/
theorem claim_C3_witness : goldStep M3 rs1 = Outcome.fatal :=
  claim_C3 M3 rs1 (by decide)

/-- C4 (counterexample): with every score at `-INFINITY` and action `0`
disallowed, the selected action is not an allowed argmax at all (the claimed
selection rule fails). -/
theorem claim_C4_counterexample :
    ¬ isFirstAllowedArgmax (fun act => MD2.isAllowedAction act 0) (scBot 0) 2
      ((bestAction (fun act => MD2.isAllowedAction act 0) (scBot 0) 2).1) := by
  decide

/-- C4 (amended): for every DecodedPolicy step, occupied slot and score row,
provided some allowed action has a score above `-INFINITY`, the selected
action is an allowed action of maximal score and every lower-indexed allowed
action scores strictly below it (ties at the maximum go to the lowest index,
by the left-to-right scan with strict `>`). -/
theorem claim_C4 {q : Type} [LinearOrder q] (M : ParserModel σ Sent Doc)
    (scores : Nat → Nat → WithBot q) (nA : Nat) (slots : List (Option σ))
    (i : Nat) (s : σ) (a : Nat)
    (hs : slots.get? i = some (some s))
    (ha : (appliedActions M scores nA slots 0).get? i = some (some a))
    (hex : ∃ b, b < nA ∧ M.isAllowedAction b s = true ∧
      (⊥ : WithBot q) < scores (batchIndexOf slots i) b) :
    isFirstAllowedArgmax (fun act => M.isAllowedAction act s)
      (scores (batchIndexOf slots i)) nA a := by
  have hget := appliedActions_get M scores nA slots 0 i s hs
  rw [ha] at hget
  have haa : a = (bestAction (fun act => M.isAllowedAction act s)
      (scores (0 + countOccupied (slots.take i))) nA).1 := by
    injection hget with h2
    injection h2
  have hrow : 0 + countOccupied (slots.take i) = batchIndexOf slots i := by
    simp [batchIndexOf]
  rw [hrow] at haa
  rcases bestAction_spec (fun act => M.isAllowedAction act s)
      (scores (batchIndexOf slots i)) nA with
    ⟨hbs, hb0, hall⟩ | ⟨hlt, hal, hrw, hpos, hub, hstrict⟩
  · rcases hex with ⟨b, hb, hab, hposb⟩
    rw [hall b hb hab] at hposb
    exact absurd hposb (lt_irrefl _)
  · subst haa
    refine ⟨hlt, hal, ?_, ?_⟩
    · intro b hb hab
      rw [hrw]
      exact hub b hb hab
    · intro b hb hab
      rw [hrw]
      exact hstrict b hb hab

/-- C4 (witness): the amended statement evaluated on a concrete row where
allowed action `1` has a finite score. -/
theorem claim_C4_witness :
    isFirstAllowedArgmax (fun act => MD2.isAllowedAction act 0)
      (scOne (batchIndexOf [some 0] 0)) 2 1 :=
  claim_C4 MD2 scOne 2 [some 0] 0 0 1 (by decide) (by decide)
    ⟨1, by decide, by decide, by decide⟩

/-- C5: for every step of either policy, the epoch counter is incremented
exactly when no batch slot is occupied after the advancement pass; in that
case the corpus is rewound and every slot refilled before outputs are
produced; otherwise slots, cursor and counter pass through unchanged; and the
emitted epoch output equals the post-step counter. -/
theorem claim_C5 (Mg : ParserModel σ Sent Doc) (rsg : ReaderState σ Sent Doc)
    (outg : GoldOutput) (rsg' : ReaderState σ Sent Doc)
    (hg : goldStep Mg rsg = .ok (outg, rsg'))
    {σ2 Sent2 Doc2 q : Type} [LinearOrder q] (Md : ParserModel σ2 Sent2 Doc2)
    (scores : Nat → Nat → WithBot q) (nA : Nat) (rsd : ReaderState σ2 Sent2 Doc2)
    (outd : DecodedOutput Doc2) (rsd' : ReaderState σ2 Sent2 Doc2)
    (hd : decodedStep Md scores nA rsd = .ok (outd, rsd')) :
    ((countOccupied (advancePass Mg (goldActionsPass Mg rsg.slots) rsg.remaining).1 = 0 →
        rsg'.numEpochs = rsg.numEpochs + 1 ∧
        rsg'.slots = (refillPass Mg
          (advancePass Mg (goldActionsPass Mg rsg.slots) rsg.remaining).1 rsg.corpus).1 ∧
        rsg'.remaining = (refillPass Mg
          (advancePass Mg (goldActionsPass Mg rsg.slots) rsg.remaining).1 rsg.corpus).2) ∧
      (countOccupied (advancePass Mg (goldActionsPass Mg rsg.slots) rsg.remaining).1 ≠ 0 →
        rsg'.numEpochs = rsg.numEpochs ∧
        rsg'.slots = (advancePass Mg (goldActionsPass Mg rsg.slots) rsg.remaining).1 ∧
        rsg'.remaining = (advancePass Mg (goldActionsPass Mg rsg.slots) rsg.remaining).2) ∧
      outg.epoch = rsg'.numEpochs) ∧
    ((countOccupied (advancePass Md
          (decodedGo Md scores nA rsd.slots 0 (0, 0) rsd.documents).1 rsd.remaining).1 = 0 →
        rsd'.numEpochs = rsd.numEpochs + 1 ∧
        rsd'.slots = (refillPass Md (advancePass Md
          (decodedGo Md scores nA rsd.slots 0 (0, 0) rsd.documents).1 rsd.remaining).1
          rsd.corpus).1 ∧
        rsd'.remaining = (refillPass Md (advancePass Md
          (decodedGo Md scores nA rsd.slots 0 (0, 0) rsd.documents).1 rsd.remaining).1
          rsd.corpus).2) ∧
      (countOccupied (advancePass Md
          (decodedGo Md scores nA rsd.slots 0 (0, 0) rsd.documents).1 rsd.remaining).1 ≠ 0 →
        rsd'.numEpochs = rsd.numEpochs ∧
        rsd'.slots = (advancePass Md
          (decodedGo Md scores nA rsd.slots 0 (0, 0) rsd.documents).1 rsd.remaining).1 ∧
        rsd'.remaining = (advancePass Md
          (decodedGo Md scores nA rsd.slots 0 (0, 0) rsd.documents).1 rsd.remaining).2) ∧
      outd.epoch = rsd'.numEpochs) := by
  constructor
  · obtain ⟨-, he, -, h4, h5, -, h7, -, -, -⟩ := goldStep_ok_inv Mg rsg outg rsg' hg
    have hpl : goldPipeline Mg rsg = advanceRefill Mg (goldActionsPass Mg rsg.slots)
        rsg.remaining rsg.corpus rsg.numEpochs := rfl
    rw [hpl] at he h4 h5 h7
    refine ⟨?_, ?_, ?_⟩
    · intro h0
      have hAR := (advanceRefill_spec Mg (goldActionsPass Mg rsg.slots)
        rsg.remaining rsg.corpus rsg.numEpochs).1 h0
      rw [hAR] at h4 h5 h7
      exact ⟨h7, h4, h5⟩
    · intro h0
      have hAR := (advanceRefill_spec Mg (goldActionsPass Mg rsg.slots)
        rsg.remaining rsg.corpus rsg.numEpochs).2 h0
      rw [hAR] at h4 h5 h7
      exact ⟨h7, h4, h5⟩
    · rw [he, ← h7]
  · obtain ⟨-, he, -, -, -, h6, h7, -, h9, -, -, -⟩ :=
      decodedStep_ok_inv Md scores nA rsd outd rsd' hd
    have hpl : (decodedPipeline Md scores nA rsd).2 = advanceRefill Md
        (decodedGo Md scores nA rsd.slots 0 (0, 0) rsd.documents).1
        rsd.remaining rsd.corpus rsd.numEpochs := rfl
    rw [hpl] at he h6 h7 h9
    refine ⟨?_, ?_, ?_⟩
    · intro h0
      have hAR := (advanceRefill_spec Md
        (decodedGo Md scores nA rsd.slots 0 (0, 0) rsd.documents).1
        rsd.remaining rsd.corpus rsd.numEpochs).1 h0
      rw [hAR] at h6 h7 h9
      exact ⟨h9, h6, h7⟩
    · intro h0
      have hAR := (advanceRefill_spec Md
        (decodedGo Md scores nA rsd.slots 0 (0, 0) rsd.documents).1
        rsd.remaining rsd.corpus rsd.numEpochs).2 h0
      rw [hAR] at h6 h7 h9
      exact ⟨h9, h6, h7⟩
    · rw [he, ← h9]

/-- C5 (witness): a gold run that does not exhaust the batch (counter
unchanged) and a decoded run that does (counter bumped, slots refilled). -/
theorem claim_C5_witness :
    R1.numEpochs = rs1.numEpochs ∧ O1.epoch = R1.numEpochs ∧
    R7.numEpochs = rs7.numEpochs + 1 ∧ O7.epoch = R7.numEpochs ∧
    R7.slots = (refillPass MD (advancePass MD
      (decodedGo MD scZero 1 rs7.slots 0 (0, 0) rs7.documents).1 rs7.remaining).1
      rs7.corpus).1 := by
  have h := claim_C5 MG rs1 O1 R1 (by decide) MD scZero 1 rs7 O7 R7 (by decide)
  exact ⟨(h.1.2.1 (by decide)).1, h.1.2.2, (h.2.1 (by decide)).1, h.2.2.2,
    (h.2.1 (by decide)).2.1⟩

/-- C6: for every step of either policy, each feature-group output holds
exactly one row per slot occupied after the refill pass, rows appear in
increasing slot order (the compacted occupied-slot list), and empty slots
contribute no row. -/
theorem claim_C6 (Mg : ParserModel σ Sent Doc) (rsg : ReaderState σ Sent Doc)
    (outg : GoldOutput) (rsg' : ReaderState σ Sent Doc)
    (hg : goldStep Mg rsg = .ok (outg, rsg'))
    (hxg : ∀ s : σ, (Mg.extract s).length = Mg.numEmbeddings)
    {σ2 Sent2 Doc2 q : Type} [LinearOrder q] (Md : ParserModel σ2 Sent2 Doc2)
    (scores : Nat → Nat → WithBot q) (nA : Nat) (rsd : ReaderState σ2 Sent2 Doc2)
    (outd : DecodedOutput Doc2) (rsd' : ReaderState σ2 Sent2 Doc2)
    (hd : decodedStep Md scores nA rsd = .ok (outd, rsd'))
    (hxd : ∀ s : σ2, (Md.extract s).length = Md.numEmbeddings) :
    (outg.features.length = Mg.numEmbeddings ∧
      ∀ g, g < Mg.numEmbeddings →
        outg.features.get? g =
          some ((rsg'.slots.filterMap id).map fun s => (Mg.extract s).getD g []) ∧
        ((rsg'.slots.filterMap id).map fun s => (Mg.extract s).getD g []).length =
          countOccupied rsg'.slots) ∧
    (outd.features.length = Md.numEmbeddings ∧
      ∀ g, g < Md.numEmbeddings →
        outd.features.get? g =
          some ((rsd'.slots.filterMap id).map fun s => (Md.extract s).getD g []) ∧
        ((rsd'.slots.filterMap id).map fun s => (Md.extract s).getD g []).length =
          countOccupied rsd'.slots) := by
  constructor
  · obtain ⟨hp, -, -, h4, -, -, -, -, -, -⟩ := goldStep_ok_inv Mg rsg outg rsg' hg
    have hp2 : populateGo Mg ((goldPipeline Mg rsg).1.filterMap id)
        (List.replicate Mg.numEmbeddings []) = .ok outg.features := hp
    have hlenhyp : ∀ s ∈ (goldPipeline Mg rsg).1.filterMap id,
        (Mg.extract s).length =
          (List.replicate Mg.numEmbeddings ([] : List (List String))).length := by
      intro s hs
      rw [hxg s, List.length_replicate]
    constructor
    · rw [populateGo_ok_length Mg _ _ outg.features hp2 hlenhyp, List.length_replicate]
    · intro g hgl
      have hget := populateGo_ok_get Mg _ _ outg.features hp2 hlenhyp g
      rw [replicate_get_opt ([] : List (List String)) Mg.numEmbeddings g hgl] at hget
      simp only [Option.map_some', List.nil_append] at hget
      constructor
      · rw [h4]
        exact hget
      · rw [h4]
        simp [countOccupied]
  · obtain ⟨hp, -, -, -, -, h6, -, -, -, -, -, -⟩ :=
      decodedStep_ok_inv Md scores nA rsd outd rsd' hd
    have hp2 : populateGo Md ((decodedPipeline Md scores nA rsd).2.1.filterMap id)
        (List.replicate Md.numEmbeddings []) = .ok outd.features := hp
    have hlenhyp : ∀ s ∈ (decodedPipeline Md scores nA rsd).2.1.filterMap id,
        (Md.extract s).length =
          (List.replicate Md.numEmbeddings ([] : List (List String))).length := by
      intro s hs
      rw [hxd s, List.length_replicate]
    constructor
    · rw [populateGo_ok_length Md _ _ outd.features hp2 hlenhyp, List.length_replicate]
    · intro g hgl
      have hget := populateGo_ok_get Md _ _ outd.features hp2 hlenhyp g
      rw [replicate_get_opt ([] : List (List String)) Md.numEmbeddings g hgl] at hget
      simp only [Option.map_some', List.nil_append] at hget
      constructor
      · rw [h6]
        exact hget
      · rw [h6]
        simp [countOccupied]

/-- C6 (witness): the statement evaluated on concrete gold and decoded
runs, group 0. -/
theorem claim_C6_witness :
    O6.features.length = MG.numEmbeddings ∧
    O6.features.get? 0 =
      some ((R6.slots.filterMap id).map fun s => (MG.extract s).getD 0 []) ∧
    O7.features.get? 0 =
      some ((R7.slots.filterMap id).map fun s => (MD.extract s).getD 0 []) := by
  have h := claim_C6 MG rs6 O6 R6 (by decide) (fun _ => rfl)
    MD scZero 1 rs7 O7 R7 (by decide) (fun _ => rfl)
  exact ⟨h.1.1, (h.1.2 0 (by decide)).1, (h.2.2 0 (by decide)).1⟩

/-- C7: for every DecodedPolicy step the emitted accuracy tuple counts only
tokens of sentences finalized during that step (summed per-sentence tallies),
the counters stored back equal the emitted tuple, and the counters are reset
at step start: the step result does not depend on the incoming counter
members. -/
theorem claim_C7 {q : Type} [LinearOrder q] (M : ParserModel σ Sent Doc)
    (scores : Nat → Nat → WithBot q) (nA : Nat) (rs : ReaderState σ Sent Doc)
    (out : DecodedOutput Doc) (rs' : ReaderState σ Sent Doc)
    (hd : decodedStep M scores nA rs = .ok (out, rs')) :
    (out.numTokens, out.numCorrect) = specStepAccuracy M scores nA rs.slots ∧
    (rs'.numTokensAcc, rs'.numCorrectAcc) = (out.numTokens, out.numCorrect) ∧
    ∀ t c, decodedStep M scores nA
      { rs with numTokensAcc := t, numCorrectAcc := c } = .ok (out, rs') := by
  obtain ⟨-, -, hnt, hnc, -, -, -, -, -, -, hnta, hnca⟩ :=
    decodedStep_ok_inv M scores nA rs out rs' hd
  have hc2 : (decodedGo M scores nA rs.slots 0 (0, 0) rs.documents).2.1 =
      specStepAccuracy M scores nA rs.slots := by
    rw [decodedGo_counts M scores nA rs.slots 0 (0, 0) rs.documents, addPair_zero_left]
    rfl
  refine ⟨?_, ?_, ?_⟩
  · rw [hnt, hnc]
    exact hc2
  · rw [hnta, hnca, hnt, hnc]
  · intro t c
    exact hd

/-- C7 (witness): the statement evaluated on the concrete decoded run with
nonzero incoming counters. -/
theorem claim_C7_witness :
    (O7.numTokens, O7.numCorrect) = specStepAccuracy MD scZero 1 rs7.slots ∧
    decodedStep MD scZero 1
      { rs7 with numTokensAcc := 9, numCorrectAcc := 9 } = .ok (O7, R7) := by
  have h := claim_C7 MD scZero 1 rs7 O7 R7 (by decide)
  exact ⟨h.1, h.2.2 9 9⟩

/-- C8: for every DecodedPolicy step, the emitted document output is the
incoming buffer followed by the annotated sentences finalized during this
step's action pass (in slot order), and the buffer is cleared afterwards, so
with the buffer empty at step start (as every step leaves it) no document is
emitted by more than one step. -/
theorem claim_C8 {q : Type} [LinearOrder q] (M : ParserModel σ Sent Doc)
    (scores : Nat → Nat → WithBot q) (nA : Nat) (rs : ReaderState σ Sent Doc)
    (out : DecodedOutput Doc) (rs' : ReaderState σ Sent Doc)
    (hd : decodedStep M scores nA rs = .ok (out, rs')) :
    out.docs = rs.documents ++ (finalizedGo M scores nA rs.slots 0).map M.annotate ∧
    rs'.documents = [] := by
  obtain ⟨-, -, -, -, hdocs, -, -, -, -, hnil, -, -⟩ :=
    decodedStep_ok_inv M scores nA rs out rs' hd
  constructor
  · rw [hdocs]
    exact decodedGo_docs M scores nA rs.slots 0 (0, 0) rs.documents
  · exact hnil

/-- C8 (witness): the statement evaluated on the concrete decoded run. -/
theorem claim_C8_witness :
    O7.docs = rs7.documents ++ (finalizedGo MD scZero 1 rs7.slots 0).map MD.annotate ∧
    R7.documents = [] :=
  claim_C8 MD scZero 1 rs7 O7 R7 (by decide)

/-- C9: for every slot whose state is final after the action pass, the driver
repeatedly advances to the next sentence, skipping sentences whose initial
state is already final, until a non-final state occupies the slot or the
corpus is exhausted and the slot is left empty. -/
theorem claim_C9 (M : ParserModel σ Sent Doc) (rem : List Sent) (s : σ)
    (h : M.isFinalState s = true) :
    skipFinal M rem s = firstNonFinal M rem := by
  revert s
  induction rem with
  | nil =>
    intro s h
    simp [skipFinal, firstNonFinal, h]
  | cons snt rest ih =>
    intro s h
    simp only [skipFinal]
    rw [if_pos h]
    by_cases h2 : M.isFinalState (M.initState snt) = true
    · rw [ih (M.initState snt) h2]
      simp only [firstNonFinal]
      rw [if_pos h2]
    · have h2f : M.isFinalState (M.initState snt) = false := by
        cases hb : M.isFinalState (M.initState snt)
        · rfl
        · exact absurd hb h2
      rw [skipFinal_not_final M rest (M.initState snt) h2f]
      simp only [firstNonFinal]
      rw [if_neg h2]

/-- C9 (witness): the statement evaluated on a final state with a corpus
whose first sentence is trivially final. -/
theorem claim_C9_witness :
    MG.isFinalState 2 = true ∧ skipFinal MG [3, 1] 2 = firstNonFinal MG [3, 1] :=
  ⟨by decide, claim_C9 MG [3, 1] 2 (by decide)⟩

/-- C10: for every DecodedPolicy step and occupied slot, the score row used
for that slot is its compacted batch index; that index is exactly the slot's
row in the compacted occupied-slot list for which features were emitted at
the end of the previous step (the list is read before any refill); and the
action pass preserves the occupancy pattern, so selection-time occupancy
equals feature-time occupancy. -/
theorem claim_C10 {q : Type} [LinearOrder q] (M : ParserModel σ Sent Doc)
    (scores : Nat → Nat → WithBot q) (nA : Nat) (rs : ReaderState σ Sent Doc)
    (i : Nat) (s : σ) (hs : rs.slots.get? i = some (some s)) :
    (appliedActions M scores nA rs.slots 0).get? i =
      some (some ((bestAction (fun act => M.isAllowedAction act s)
        (scores (batchIndexOf rs.slots i)) nA).1)) ∧
    (rs.slots.filterMap id).get? (batchIndexOf rs.slots i) = some s ∧
    ∀ (acc : Nat × Nat) (docs : List Doc),
      ((decodedGo M scores nA rs.slots 0 acc docs).1).map Option.isSome =
        rs.slots.map Option.isSome := by
  have hrow : 0 + countOccupied (rs.slots.take i) = batchIndexOf rs.slots i := by
    simp [batchIndexOf]
  refine ⟨?_, filterMap_get_batchIndex rs.slots i s hs, ?_⟩
  · have hap := appliedActions_get M scores nA rs.slots 0 i s hs
    rw [hrow] at hap
    exact hap
  · intro acc docs
    exact decodedGo_isSome M scores nA rs.slots 0 acc docs

/-- C10 (witness): the statement evaluated on a batch with an empty slot 0
and occupied slots 1 and 2, at slot 2 (batch index 1). -/
theorem claim_C10_witness :
    (appliedActions MD scZero 2 rs10.slots 0).get? 2 =
      some (some ((bestAction (fun act => MD.isAllowedAction act 8)
        (scZero (batchIndexOf rs10.slots 2)) 2).1)) ∧
    (rs10.slots.filterMap id).get? (batchIndexOf rs10.slots 2) = some 8 ∧
    ((decodedGo MD scZero 2 rs10.slots 0 (0, 0) []).1).map Option.isSome =
      rs10.slots.map Option.isSome := by
  have h := claim_C10 MD scZero 2 rs10 2 8 (by decide)
  exact ⟨h.1, h.2.1, h.2.2 (0, 0) []⟩

end Neurosis
